import Mathlib

/-!
Verification of the jobcode-hierarchy / timesheet-report core of the
Tsheets-MCP repository (TypeScript), as a shallow embedding in Lean.

Embedding conventions:
* JavaScript strings are modelled as `List Char` (`JStr`); string literals
  are written via `String.toList` so that everything kernel-evaluates.
* JavaScript numbers that hold ids / durations are `Nat`; fractional
  arithmetic (`duration/3600`, `hours + minutes/60`, `toFixed(2)`) is
  modelled with exact rationals `ℚ`.
* `Record<string, T>` objects keyed by an entity's id are modelled as
  `List T` with lookup by id (`find?`); key uniqueness, where a claim
  needs it, is the explicit `IdKeyed` hypothesis.
* Functions of the source that can loop forever (the recursive
  `getAllDescendants` and the `while` loop of `buildJobPath` have no
  cycle guard) are embedded with an explicit fuel parameter and return
  `none` when the fuel is exhausted, so that divergence of the source
  corresponds to `= none` at every fuel.
* Network collaborators (`TSheetsClient`) are passed in as explicit data
  (`Collab`), and the file fetch, which the source wraps in try/catch,
  is an `Except` value.
-/

/-- JavaScript strings, modelled as their character sequences. -/
abbrev JStr := List Char

/-- Embed a Lean string literal as a `JStr`. -/
def strLit (s : String) : JStr := s.toList

/-- `String.prototype.toLowerCase`, on the ASCII range. -/
def toLowerStr (s : JStr) : JStr := s.map Char.toLower

/-- Is the first list a prefix of the second (character-exact)? -/
def hasPrefixChars : JStr → JStr → Bool
  | [], _ => true
  | _ :: _, [] => false
  | a :: as, b :: bs => a == b && hasPrefixChars as bs

/-- `hay.includes(needle)` of JavaScript: substring containment. -/
def strContains : JStr → JStr → Bool
  | [], needle => needle.isEmpty
  | h :: t, needle => hasPrefixChars needle (h :: t) || strContains t needle

/-- Strict lexicographic comparison by code point; models a negative
`localeCompare` result in the default locale. -/
def strLtb : JStr → JStr → Bool
  | [], [] => false
  | [], _ :: _ => true
  | _ :: _, [] => false
  | a :: as, b :: bs => a < b || (a == b && strLtb as bs)

/-- Non-strict lexicographic comparison (`localeCompare <= 0`). -/
def strLeb (a b : JStr) : Bool := !(strLtb b a)

/-- `parseInt(s, 10)`: skip leading whitespace, optional sign, then the
longest run of decimal digits; `none` models `NaN` (no digits found). -/
def jsParseInt (s : JStr) : Option Int :=
  let s := s.dropWhile fun c => c == ' ' || c == '\t' || c == '\n' || c == '\r'
  let (sign, s) : Int × JStr :=
    match s with
    | '-' :: rest => (-1, rest)
    | '+' :: rest => (1, rest)
    | _ => (1, s)
  let digits := s.takeWhile Char.isDigit
  if digits.isEmpty then none
  else some (sign * (digits.foldl (fun acc c => 10 * acc + (c.toNat - 48)) 0 : Nat))

/-- `[...new Set(l)]`: deduplication keeping first occurrences. -/
def jsUniq {α : Type} [DecidableEq α] (l : List α) : List α :=
  l.foldl (fun acc x => if x ∈ acc then acc else acc ++ [x]) []

/-- `Math.round`: round half toward positive infinity. -/
def jsRound (q : ℚ) : ℤ := ⌊q + 1/2⌋

/-- Numeric value of `parseFloat(x.toFixed(2))`: round to 2 decimals. -/
def round2 (q : ℚ) : ℚ := (jsRound (q * 100) : ℚ) / 100

/-- A jobcode record (`src/types/tsheets.ts`, `JobcodeSchema`); only the
fields the verified code paths read are carried (`type`, `active` and
`has_children` are never consulted by them). -/
structure Jobcode where
  id : Nat
  parent_id : Option Nat
  name : JStr
  short_code : Option JStr
  deriving DecidableEq

/-- A user record (fields read by the report code). -/
structure User where
  id : Nat
  first_name : JStr
  last_name : JStr
  deriving DecidableEq

/-- A file-attachment record (fields read by the report code). -/
structure File where
  id : Nat
  file_name : JStr
  file_size : Nat
  file_url : JStr
  deriving DecidableEq

/-- A raw timesheet record (fields read by the report code). -/
structure Timesheet where
  id : Nat
  user_id : Nat
  jobcode_id : Nat
  duration : Nat
  date : JStr
  notes : Option JStr
  attached_files : Option (List Nat)
  deriving DecidableEq

/-- `TimesheetWithDetails` (`src/api/tsheets.ts`): a timesheet enriched
with its user, jobcode and file records. -/
structure TimesheetWithDetails extends Timesheet where
  user : Option User
  jobcode : Option Jobcode
  files : List File
  deriving DecidableEq

/-- Lookup `allJobcodes[n.toString()]` in an id-keyed jobcode record. -/
def lookupJobcode (dir : List Jobcode) (n : Nat) : Option Jobcode :=
  dir.find? fun jc => jc.id == n

/-- The jobcode record is keyed by id: no two entries share an id. -/
def IdKeyed (dir : List Jobcode) : Prop := (dir.map Jobcode.id).Nodup

instance (dir : List Jobcode) : Decidable (IdKeyed dir) := by
  unfold IdKeyed
  infer_instance

/-- JavaScript truthiness of `jc.parent_id`: present and nonzero. -/
def parentTruthy (jc : Jobcode) : Bool :=
  match jc.parent_id with
  | some p => p != 0
  | none => false

/-- The `for (const child of directChildren)` loop of
`getAllDescendants`: concatenates `recurse child.id` over the children,
propagating fuel exhaustion. -/
def descendantsMany (recurse : Nat → Option (List Nat)) : List Jobcode → Option (List Nat)
  | [] => some []
  | c :: cs =>
    match recurse c.id with
    | none => none
    | some r =>
      match descendantsMany recurse cs with
      | none => none
      | some rs => some (r ++ rs)

/-- `TSheetsApi.getAllDescendants` (`src/api/tsheets.ts` 36-46): the
direct children's ids followed by, for each child, its recursive
descendants.  The source recurses with no cycle guard; `fuel` bounds the
embedding's recursion depth and `none` means the source would still be
recursing (diverging) at that depth. -/
def getAllDescendants : Nat → Nat → List Jobcode → Option (List Nat)
  | 0, _, _ => none
  | fuel + 1, parentId, allJobcodes =>
    let directChildren := allJobcodes.filter fun jc => jc.parent_id == some parentId
    match descendantsMany (fun pid => getAllDescendants fuel pid allJobcodes) directChildren with
    | none => none
    | some rest => some (directChildren.map Jobcode.id ++ rest)

/-- Display fragment of one node in `buildJobPath`
(`src/tools/get-project-report.ts` 112-114): `"{name} {short_code}"`, or
just the name when the short code is absent or empty (falsy). -/
def displayName (jc : Jobcode) : JStr :=
  match jc.short_code with
  | some sc => if sc.isEmpty then jc.name else jc.name ++ [' '] ++ sc
  | none => jc.name

/-- The `while (current)` loop of `buildJobPath`
(`src/tools/get-project-report.ts` 111-123): prepend the fragment, then
follow `parent_id` while it is truthy and resolvable in the map.  The
source loop has no hop limit; `none` models it still looping after
`fuel` iterations. -/
def buildJobPathGo : Nat → List Jobcode → Jobcode → List JStr → Option (List JStr)
  | 0, _, _, _ => none
  | fuel + 1, jobcodeMap, current, parts =>
    let parts := displayName current :: parts
    if parentTruthy current then
      match current.parent_id with
      | some pid =>
        match lookupJobcode jobcodeMap pid with
        | some p => buildJobPathGo fuel jobcodeMap p parts
        | none => some parts
      | none => some parts
    else some parts

/-- `buildJobPath` (`src/tools/get-project-report.ts` 105-126):
`'Unknown'` for an absent jobcode, otherwise the root-to-leaf fragments
joined with `" › "`. -/
def buildJobPath (fuel : Nat) (jobcodeMap : List Jobcode) : Option Jobcode → Option JStr
  | none => some (strLit "Unknown")
  | some jc =>
    match buildJobPathGo fuel jobcodeMap jc [] with
    | none => none
    | some parts => some ((parts.intersperse (strLit " › ")).flatten)

/-- JavaScript truthiness of an optional numeric argument (`0` is falsy,
as in `if (jobcodeId)`). -/
def natTruthy : Option Nat → Option Nat
  | some n => if n = 0 then none else some n
  | none => none

/-- JavaScript truthiness of an optional string argument (`''` is falsy,
as in `else if (jobcodeName)`). -/
def strTruthy : Option JStr → Option JStr
  | some s => if s.isEmpty then none else some s
  | none => none

/-- Lookup `allJobcodes[numericId.toString()]` for a `parseInt` result
(ids are non-negative, so a negative parse can never hit a key). -/
def lookupJobcodeInt (dir : List Jobcode) (n : Int) : Option Jobcode :=
  dir.find? fun jc => (jc.id : Int) == n

/-- The case-insensitive match of `getTimesheetsForDateRange`
(`src/api/tsheets.ts` 105-108): the reference is a substring of the
lowered `name`, or of the lowered `short_code` when that is truthy. -/
def nameMatches (jobcodeName : JStr) (jc : Jobcode) : Bool :=
  strContains (toLowerStr jc.name) (toLowerStr jobcodeName) ||
    match jc.short_code with
    | some sc => !sc.isEmpty && strContains (toLowerStr sc) (toLowerStr jobcodeName)
    | none => false

/-- Result of steps 1 of `getTimesheetsForDateRange`: either no filter
was requested, the reference matched nothing (the source returns `[]`
at once), or a list of jobcode ids to constrain the fetch. -/
inductive ResolveOutcome where
  | noFilter : ResolveOutcome
  | notFound : ResolveOutcome
  | withFilter : List Nat → ResolveOutcome
  deriving DecidableEq

/-- The jobcode-filter resolution of `getTimesheetsForDateRange`
(`src/api/tsheets.ts` 64-134): direct id branch, numeric-name shortcut,
then case-insensitive name/short-code matching with descendant
expansion.  `none` only when the unguarded descendant recursion
exhausts `fuel`. -/
def resolveJobcodeFilter (fuel : Nat) (allJobcodes : List Jobcode)
    (jobcodeName : Option JStr) (jobcodeId : Option Nat) : Option ResolveOutcome :=
  match natTruthy jobcodeId with
  | some jid =>
    match lookupJobcode allJobcodes jid with
    | none => some ResolveOutcome.notFound
    | some _ =>
      (getAllDescendants fuel jid allJobcodes).map fun descendants =>
        ResolveOutcome.withFilter (jid :: descendants)
  | none =>
    match strTruthy jobcodeName with
    | none => some ResolveOutcome.noFilter
    | some nm =>
      match (jsParseInt nm).bind fun n => lookupJobcodeInt allJobcodes n with
      | some jc =>
        (getAllDescendants fuel jc.id allJobcodes).map fun descendants =>
          ResolveOutcome.withFilter (jc.id :: descendants)
      | none =>
        let matchingJobcodes := allJobcodes.filter (nameMatches nm)
        if matchingJobcodes.isEmpty then some ResolveOutcome.notFound
        else
          match descendantsMany (fun pid => getAllDescendants fuel pid allJobcodes)
              matchingJobcodes with
          | none => none
          | some allDescendants =>
            some (ResolveOutcome.withFilter
              (matchingJobcodes.map Jobcode.id ++ allDescendants))

/-- The network collaborators of `getTimesheetsForDateRange`, as data.
The requested date range is folded into `timesheets` (the embedding
never inspects the dates, it only forwards them). -/
structure Collab where
  jobcodes : List Jobcode
  timesheets : Option (List Nat) → List Timesheet
  supplementalJobcodes : Option (List Jobcode)
  supplementalUsers : Option (List User)
  users : List Nat → List User
  files : List Nat → Except JStr (List File)

/-- Step 3 merge (`Object.assign(allJobcodes, supplemental)`): for id
lookup, supplemental jobcodes take precedence over the bulk load. -/
def mergedJobcodesOf (c : Collab) : List Jobcode :=
  match c.supplementalJobcodes with
  | some sup => sup ++ c.jobcodes
  | none => c.jobcodes

/-- Step 4: users from the supplemental payload when present, otherwise
fetched for the distinct referenced user ids. -/
def usersOf (c : Collab) (timesheets : List Timesheet) : List User :=
  match c.supplementalUsers with
  | some us => us
  | none => c.users (jsUniq (timesheets.map Timesheet.user_id))

/-- The effective file map of steps 5-6 (`src/api/tsheets.ts` 174-197):
fetched only when some timesheet carries attachments, and replaced by
the empty map when the fetch throws (the `catch` logs and continues). -/
def fetchedFiles (c : Collab) (timesheets : List Timesheet) : List File :=
  let timesheetsWithFiles := timesheets.filter fun ts =>
    match ts.attached_files with
    | some fs => !fs.isEmpty
    | none => false
  if timesheetsWithFiles.isEmpty then []
  else
    let fileIds := timesheetsWithFiles.flatMap fun ts => ts.attached_files.getD []
    let uniqueFileIds := jsUniq fileIds
    if uniqueFileIds.isEmpty then []
    else
      match c.files uniqueFileIds with
      | Except.ok fs => fs
      | Except.error _ => []

/-- Step 6 of `getTimesheetsForDateRange` (`src/api/tsheets.ts`
200-207): attach user, jobcode and resolved files to one timesheet;
ids absent from the file map are dropped by the `filter`. -/
def enrichTimesheet (users : List User) (mergedJobcodes : List Jobcode)
    (files : List File) (ts : Timesheet) : TimesheetWithDetails :=
  { toTimesheet := ts
    user := users.find? fun u => u.id == ts.user_id
    jobcode := lookupJobcode mergedJobcodes ts.jobcode_id
    files := (ts.attached_files.getD []).filterMap fun fileId =>
      files.find? fun f => f.id == fileId }

/-- `TSheetsApi.getTimesheetsForDateRange` (`src/api/tsheets.ts`
51-210) as a pure function of the collaborator responses.  `none` only
when the unguarded descendant recursion exhausts `fuel`. -/
def getTimesheetsForDateRange (fuel : Nat) (c : Collab)
    (jobcodeName : Option JStr) (jobcodeId : Option Nat) :
    Option (List TimesheetWithDetails) :=
  let allJobcodes := c.jobcodes
  match resolveJobcodeFilter fuel allJobcodes jobcodeName jobcodeId with
  | none => none
  | some ResolveOutcome.notFound => some []
  | some outcome =>
    let jobcodeFilter : Option (List Nat) :=
      match outcome with
      | ResolveOutcome.withFilter ids => some ids
      | _ => none
    let timesheets := c.timesheets jobcodeFilter
    if timesheets.isEmpty then some []
    else
      some (timesheets.map
        (enrichTimesheet (usersOf c timesheets) (mergedJobcodesOf c)
          (fetchedFiles c timesheets)))

/-- One attachment row of the report (`src/tools/get-project-report.ts`
142-147).  The source stringifies the id and substitutes `''`/`0` for
absent url/size; the embedded `File` carries both fields. -/
structure Attachment where
  id : Nat
  fileName : JStr
  fileUrl : JStr
  fileSize : Nat
  deriving DecidableEq

/-- One transformed activity row (`src/tools/get-project-report.ts`
149-160).  `billableStatus`/`hourlyRate` are the constants
`'NotBillable'`/`0` in the source and are omitted. -/
structure TimeActivity where
  id : Nat
  date : JStr
  employeeName : JStr
  jobName : JStr
  hours : Int
  minutes : Int
  description : JStr
  attachments : List Attachment
  deriving DecidableEq

/-- `timesheet.duration / 3600` (seconds to fractional hours). -/
def durationHours (duration : Nat) : ℚ := (duration : ℚ) / 3600

/-- `Math.floor(durationHours)` (`get-project-report.ts` 138). -/
def entryHours (duration : Nat) : Int := ⌊durationHours duration⌋

/-- `Math.round((durationHours - hours) * 60)` (line 139); there is no
carry guard in the source, so this can evaluate to 60. -/
def entryMinutes (duration : Nat) : Int :=
  jsRound ((durationHours duration - entryHours duration) * 60)

/-- `${first_name} ${last_name}`.trim()` of the transform. -/
def trimStr (s : JStr) : JStr :=
  let ws : Char → Bool := fun ch => ch == ' ' || ch == '\t' || ch == '\n' || ch == '\r'
  ((s.dropWhile ws).reverse.dropWhile ws).reverse

/-- The per-timesheet transform of `getProjectReport`
(`src/tools/get-project-report.ts` 129-161); `none` only when the
unguarded `buildJobPath` loop exhausts `fuel`. -/
def transformActivity (fuel : Nat) (jobcodeMap : List Jobcode)
    (timesheet : TimesheetWithDetails) : Option TimeActivity :=
  let employeeName :=
    match timesheet.user with
    | some u => trimStr (u.first_name ++ [' '] ++ u.last_name)
    | none => strLit "Unknown"
  let jobNameOpt :=
    match timesheet.jobcode with
    | some jc => buildJobPath fuel jobcodeMap (some jc)
    | none => some (strLit "Unknown")
  match jobNameOpt with
  | none => none
  | some jobName =>
    some
      { id := timesheet.id
        date := timesheet.date
        employeeName := employeeName
        jobName := jobName
        hours := entryHours timesheet.duration
        minutes := entryMinutes timesheet.duration
        description := timesheet.notes.getD []
        attachments := timesheet.files.map fun f =>
          { id := f.id, fileName := f.file_name, fileUrl := f.file_url,
            fileSize := f.file_size } }

/-- The transform mapped over all fetched timesheets. -/
def transformAll (fuel : Nat) (jobcodeMap : List Jobcode) :
    List TimesheetWithDetails → Option (List TimeActivity)
  | [] => some []
  | ts :: rest =>
    match transformActivity fuel jobcodeMap ts with
    | none => none
    | some a =>
      match transformAll fuel jobcodeMap rest with
      | none => none
      | some as' => some (a :: as')

/-- The report shape returned by `getProjectReport`
(`src/types/sage.ts`, `ProjectReport`). -/
structure ProjectReport where
  jobName : JStr
  startDate : JStr
  endDate : JStr
  totalEntries : Nat
  totalHours : ℚ
  timeActivities : List TimeActivity
  attachments : List Attachment

/-- The string `projectName` or else `Job #id` or else `All Projects`
(`src/tools/get-project-report.ts` 49). -/
def resolvedNameOf (projectName : Option JStr) (jobcodeId : Option Nat) : JStr :=
  match strTruthy projectName with
  | some nm => nm
  | none =>
    match natTruthy jobcodeId with
    | some jid => strLit "Job #" ++ Nat.toDigits 10 jid
    | none => strLit "All Projects"

/-- The zeroed report returned when no timesheet data was found
(`src/tools/get-project-report.ts` 67-75). -/
def emptyProjectReport (jobName startDate endDate : JStr) : ProjectReport :=
  { jobName := jobName, startDate := startDate, endDate := endDate
    totalEntries := 0, totalHours := 0, timeActivities := [], attachments := [] }

/-- `getProjectReport` (`src/tools/get-project-report.ts` 18-182) as a
pure function: date parsing is done by the caller, the timesheet fetch
goes through `Collab`, and `jobcodeMap` stands for the
`getAllJobcodes` + missing-parent backfill map used by `buildJobPath`.
An empty fetch yields the zeroed report, never an error. -/
def getProjectReport (fuel : Nat) (c : Collab) (jobcodeMap : List Jobcode)
    (startDate endDate : JStr) (projectName : Option JStr)
    (jobcodeId : Option Nat) : Option ProjectReport :=
  let resolvedProjectName := resolvedNameOf projectName jobcodeId
  match getTimesheetsForDateRange fuel c projectName jobcodeId with
  | none => none
  | some timesheets =>
    if timesheets.isEmpty then
      some (emptyProjectReport resolvedProjectName startDate endDate)
    else
      match transformAll fuel jobcodeMap timesheets with
      | none => none
      | some transformedActivities =>
        let totalHours := transformedActivities.foldl
          (fun sum a => sum + (a.hours : ℚ) + (a.minutes : ℚ) / 60) 0
        some
          { jobName := resolvedProjectName, startDate := startDate, endDate := endDate
            totalEntries := transformedActivities.length
            totalHours := round2 totalHours
            timeActivities := transformedActivities
            attachments := transformedActivities.flatMap TimeActivity.attachments }

/-- A Sage entry (`src/types/sage.ts`); `decimalHours` holds the numeric
value of the `formatDecimalHours` display string (`toFixed(2)`). -/
structure SageEntry where
  date : JStr
  employeeName : JStr
  jobName : JStr
  hours : ℚ
  decimalHours : ℚ
  notes : JStr
  deriving DecidableEq

/-- A per-employee summary of the Sage report. -/
structure EmployeeSummary where
  name : JStr
  totalHours : ℚ
  entries : List SageEntry
  deriving DecidableEq

/-- A per-date summary of the Sage report. -/
structure DailySummary where
  date : JStr
  entries : List SageEntry
  totalHours : ℚ
  deriving DecidableEq

/-- The full Sage report shape. -/
structure SageReport where
  jobName : JStr
  startDate : JStr
  endDate : JStr
  totalHours : ℚ
  totalEntries : Nat
  entries : List SageEntry
  employeeSummaries : List EmployeeSummary
  dailySummaries : List DailySummary

/-- The entries comparator of `formatSage`: date first, employee name on
ties (a non-positive `localeCompare` chain). -/
def sageCmpLe (a b : SageEntry) : Bool :=
  if a.date = b.date then strLeb a.employeeName b.employeeName
  else strLtb a.date b.date

/-- The comparator as a decidable relation for the sort. -/
def SageLE (a b : SageEntry) : Prop := sageCmpLe a b = true

instance : DecidableRel SageLE := fun a b => by
  unfold SageLE; infer_instance

/-- Name order on employee summaries (`.sort((a, b) =>
a.name.localeCompare(b.name))`). -/
def NameLE (a b : EmployeeSummary) : Prop := strLeb a.name b.name = true

instance : DecidableRel NameLE := fun a b => by
  unfold NameLE; infer_instance

/-- Date order on daily summaries. -/
def DateLE (a b : DailySummary) : Prop := strLeb a.date b.date = true

instance : DecidableRel DateLE := fun a b => by
  unfold DateLE; infer_instance

/-- `map.set(key, [...existing, x])` on an insertion-ordered assoc list:
replace the first entry with this key in place, else append. -/
def setAssoc {α : Type} (key : JStr) (x : α) : List (JStr × List α) → List (JStr × List α)
  | [] => [(key, [x])]
  | (k, g) :: rest =>
    if k = key then (k, g ++ [x]) :: rest else (k, g) :: setAssoc key x rest

/-- The `Map`-building `forEach` of `formatSage` (grouping by a key in
insertion order), followed by `Array.from(map.entries())`. -/
def groupByKey {α : Type} (key : α → JStr) (l : List α) : List (JStr × List α) :=
  l.foldl (fun m x => setAssoc (key x) x m) []

/-- The entry conversion of `formatSage`: hours as `hours + minutes/60`,
`decimalHours` the `formatDecimalHours` value (`toFixed(2)`). -/
def toSageEntry (a : TimeActivity) : SageEntry :=
  { date := a.date
    employeeName := a.employeeName
    jobName := a.jobName
    hours := (a.hours : ℚ) + (a.minutes : ℚ) / 60
    decimalHours := round2 ((a.hours : ℚ) + (a.minutes : ℚ) / 60)
    notes := a.description }

/-- One employee summary from a grouped `(name, entries)` pair: total
hours summed then rounded to 2 decimals. -/
def employeeSummaryOf (kg : JStr × List SageEntry) : EmployeeSummary :=
  { name := kg.1
    totalHours := round2 (kg.2.foldl (fun sum e => sum + e.hours) 0)
    entries := kg.2 }

/-- One daily summary from a grouped `(date, entries)` pair. -/
def dailySummaryOf (kg : JStr × List SageEntry) : DailySummary :=
  { date := kg.1
    entries := kg.2
    totalHours := round2 (kg.2.foldl (fun sum e => sum + e.hours) 0) }

/-- `formatSage` (the Sage formatter tool): build sorted entries, then
employee summaries (grouped in insertion order, totalled, sorted by
name) and daily summaries (grouped, totalled, sorted by date).  The
source sorts with the stable `Array.prototype.sort`; `List.insertionSort`
is stable, and a stable sort by a total preorder is extensionally
unique, so it is the same function. -/
def formatSage (rawReport : ProjectReport) : SageReport :=
  let entries := (rawReport.timeActivities.map toSageEntry).insertionSort SageLE
  let employeeSummaries :=
    ((groupByKey SageEntry.employeeName entries).map employeeSummaryOf).insertionSort NameLE
  let dailySummaries :=
    ((groupByKey SageEntry.date entries).map dailySummaryOf).insertionSort DateLE
  { jobName := rawReport.jobName
    startDate := rawReport.startDate
    endDate := rawReport.endDate
    totalHours := rawReport.totalHours
    totalEntries := rawReport.totalEntries
    entries := entries
    employeeSummaries := employeeSummaries
    dailySummaries := dailySummaries }

theorem strLtb_irrefl (s : JStr) : strLtb s s = false := by
  induction s with
  | nil => rfl
  | cons a as ih => simp [strLtb, ih]

theorem strLtb_trans {a b c : JStr} (h1 : strLtb a b = true)
    (h2 : strLtb b c = true) : strLtb a c = true := by
  induction a generalizing b c with
  | nil =>
    cases b with
    | nil => simp [strLtb] at h1
    | cons y bs =>
      cases c with
      | nil => simp [strLtb] at h2
      | cons z cs => simp [strLtb]
  | cons x as ih =>
    cases b with
    | nil => simp [strLtb] at h1
    | cons y bs =>
      cases c with
      | nil => simp [strLtb] at h2
      | cons z cs =>
        simp only [strLtb, Bool.or_eq_true, decide_eq_true_eq, Bool.and_eq_true,
          beq_iff_eq] at h1 h2 ⊢
        rcases h1 with h1 | ⟨hxy, h1⟩
        · rcases h2 with h2 | ⟨hyz, h2⟩
          · exact Or.inl (h1.trans h2)
          · exact Or.inl (hyz ▸ h1)
        · rcases h2 with h2 | ⟨hyz, h2⟩
          · subst hxy; exact Or.inl h2
          · subst hxy; subst hyz; exact Or.inr ⟨rfl, ih h1 h2⟩

theorem strLtb_conn {a b : JStr} (h1 : strLtb a b = false)
    (h2 : strLtb b a = false) : a = b := by
  induction a generalizing b with
  | nil =>
    cases b with
    | nil => rfl
    | cons y bs => simp [strLtb] at h1
  | cons x as ih =>
    cases b with
    | nil => simp [strLtb] at h2
    | cons y bs =>
      simp only [strLtb, Bool.or_eq_false_iff, decide_eq_false_iff_not,
        Bool.and_eq_false_iff, beq_eq_false_iff_ne, ne_eq] at h1 h2
      have hxy : x = y := le_antisymm (not_lt.mp h2.1) (not_lt.mp h1.1)
      subst hxy
      rcases h1.2 with h | h
      · exact absurd rfl h
      · rcases h2.2 with h' | h'
        · exact absurd rfl h'
        · rw [ih h h']

theorem strLtb_asymm {a b : JStr} (h : strLtb a b = true) : strLtb b a = false := by
  by_contra hc
  have hba := Bool.not_eq_false _ |>.mp hc
  exact absurd (strLtb_trans h hba) (by simp [strLtb_irrefl])

theorem strLeb_refl (s : JStr) : strLeb s s = true := by
  simp [strLeb, strLtb_irrefl]

theorem strLeb_of_ltb {a b : JStr} (h : strLtb a b = true) : strLeb a b = true := by
  simp [strLeb, strLtb_asymm h]

theorem strLeb_total (a b : JStr) : strLeb a b = true ∨ strLeb b a = true := by
  rcases hab : strLtb b a with _ | _
  · exact Or.inl (by simp [strLeb, hab])
  · exact Or.inr (strLeb_of_ltb hab)

theorem strLeb_trans {a b c : JStr} (h1 : strLeb a b = true)
    (h2 : strLeb b c = true) : strLeb a c = true := by
  simp only [strLeb, Bool.not_eq_true'] at h1 h2 ⊢
  by_contra hc
  have hca := Bool.not_eq_false _ |>.mp hc
  rcases hab : strLtb a b with _ | _
  · have := strLtb_conn h1 hab; subst this; exact absurd hca (by simp [h2])
  · exact absurd (strLtb_trans hca hab) (by simp [h2])

theorem sageLE_trans {a b c : SageEntry} (h1 : SageLE a b) (h2 : SageLE b c) :
    SageLE a c := by
  unfold SageLE sageCmpLe at h1 h2 ⊢
  by_cases hab : a.date = b.date
  · by_cases hbc : b.date = c.date
    · rw [if_pos hab] at h1
      rw [if_pos hbc] at h2
      rw [if_pos (hab.trans hbc)]
      exact strLeb_trans h1 h2
    · rw [if_pos hab] at h1
      rw [if_neg hbc] at h2
      have hac : ¬ a.date = c.date := fun he => hbc (hab ▸ he)
      rw [if_neg hac, hab]
      exact h2
  · by_cases hbc : b.date = c.date
    · rw [if_neg hab] at h1
      have hac : ¬ a.date = c.date := fun he => hab (he.trans hbc.symm)
      rw [if_neg hac, ← hbc]
      exact h1
    · rw [if_neg hab] at h1
      rw [if_neg hbc] at h2
      have hac : ¬ a.date = c.date := by
        intro he
        have := strLtb_trans h1 h2
        rw [he] at this
        simp [strLtb_irrefl] at this
      rw [if_neg hac]
      exact strLtb_trans h1 h2

theorem sageLE_total (a b : SageEntry) : SageLE a b ∨ SageLE b a := by
  unfold SageLE sageCmpLe
  by_cases hab : a.date = b.date
  · rw [if_pos hab, if_pos hab.symm]
    exact strLeb_total _ _
  · rw [if_neg hab, if_neg (fun he => hab he.symm)]
    rcases h1 : strLtb a.date b.date with _ | _
    · rcases h2 : strLtb b.date a.date with _ | _
      · exact absurd (strLtb_conn h1 h2) hab
      · exact Or.inr rfl
    · exact Or.inl rfl

instance : IsTrans SageEntry SageLE := ⟨fun _ _ _ => sageLE_trans⟩

instance : IsTotal SageEntry SageLE := ⟨sageLE_total⟩

instance : IsTrans EmployeeSummary NameLE := ⟨fun _ _ _ => strLeb_trans⟩

instance : IsTotal EmployeeSummary NameLE := ⟨fun a b => strLeb_total a.name b.name⟩

instance : IsTrans DailySummary DateLE := ⟨fun _ _ _ => strLeb_trans⟩

instance : IsTotal DailySummary DateLE := ⟨fun a b => strLeb_total a.date b.date⟩

theorem sageLE_dateLe {a b : SageEntry} (h : SageLE a b) :
    strLeb a.date b.date = true := by
  unfold SageLE sageCmpLe at h
  by_cases hab : a.date = b.date
  · rw [hab]; exact strLeb_refl _
  · rw [if_neg hab] at h; exact strLeb_of_ltb h

theorem setAssoc_keys {α : Type} (k : JStr) (x : α) (m : List (JStr × List α)) :
    (setAssoc k x m).map Prod.fst =
      if k ∈ m.map Prod.fst then m.map Prod.fst else m.map Prod.fst ++ [k] := by
  induction m with
  | nil => simp [setAssoc]
  | cons kg rest ih =>
    obtain ⟨k', g⟩ := kg
    by_cases hk : k' = k
    · subst hk
      simp [setAssoc]
    · simp only [setAssoc, if_neg hk, List.map_cons, ih]
      by_cases hmem : k ∈ rest.map Prod.fst
      · simp [hmem, hk]
      · have hne : ¬ k = k' := fun h => hk h.symm
        simp [hmem, hne]

theorem setAssoc_groups {α : Type} (key : α → JStr) (x : α) (p : List α) :
    ∀ (m : List (JStr × List α)),
      (∀ kg ∈ m, kg.2 = p.filter fun y => key y == kg.1) →
      (m.map Prod.fst).Nodup →
      (∀ y ∈ p, key y = key x → key x ∈ m.map Prod.fst) →
      ∀ kg ∈ setAssoc (key x) x m, kg.2 = (p ++ [x]).filter fun y => key y == kg.1 := by
  intro m
  induction m with
  | nil =>
    intro _ _ hck kg hkg
    simp only [setAssoc, List.mem_singleton] at hkg
    subst hkg
    have hpf : p.filter (fun y => key y == key x) = [] := by
      rw [List.filter_eq_nil_iff]
      intro y hy
      simp only [beq_iff_eq]
      intro he
      simpa using hck y hy he
    simp [List.filter_append, hpf]
  | cons kg0 rest ih =>
    intro ha hnd hck kg hkg
    obtain ⟨k', g⟩ := kg0
    have hndk : k' ∉ rest.map Prod.fst ∧ (rest.map Prod.fst).Nodup :=
      List.nodup_cons.mp (by simpa using hnd)
    simp only [setAssoc] at hkg
    by_cases hk : k' = key x
    · rw [if_pos hk] at hkg
      rcases List.mem_cons.mp hkg with heq | htail
      · subst heq
        have hg : g = p.filter fun y => key y == k' := ha (k', g) (by simp)
        show g ++ [x] = (p ++ [x]).filter fun y => key y == k'
        rw [List.filter_append, ← hg]
        simp [hk]
      · have h2 : kg.2 = p.filter fun y => key y == kg.1 := ha kg (by simp [htail])
        have hne : ¬ (key x = kg.1) := by
          intro he
          exact hndk.1 (hk ▸ he ▸ List.mem_map_of_mem Prod.fst htail)
        rw [List.filter_append, ← h2]
        simp [hne]
    · rw [if_neg hk] at hkg
      rcases List.mem_cons.mp hkg with heq | htail
      · subst heq
        have hg : g = p.filter fun y => key y == k' := ha (k', g) (by simp)
        have hne : ¬ (key x = k') := fun h => hk h.symm
        show g = (p ++ [x]).filter fun y => key y == k'
        rw [List.filter_append, ← hg]
        simp [hne]
      · refine ih (fun kg2 h2 => ha kg2 (by simp [h2])) hndk.2 ?_ kg htail
        intro y hy he
        rcases (by simpa using hck y hy he :
            key x = k' ∨ key x ∈ rest.map Prod.fst) with h | h
        · exact absurd h.symm hk
        · exact h

theorem groupByKey_inv {α : Type} (key : α → JStr) :
    ∀ (l : List α) (m : List (JStr × List α)) (p : List α),
      (∀ kg ∈ m, kg.2 = p.filter fun y => key y == kg.1) →
      (m.map Prod.fst).Nodup →
      (∀ y ∈ p, key y ∈ m.map Prod.fst) →
      (∀ kg ∈ l.foldl (fun m x => setAssoc (key x) x m) m,
          kg.2 = (p ++ l).filter fun y => key y == kg.1) ∧
        ((l.foldl (fun m x => setAssoc (key x) x m) m).map Prod.fst).Nodup ∧
        (∀ y ∈ p ++ l, key y ∈ (l.foldl (fun m x => setAssoc (key x) x m) m).map Prod.fst) := by
  intro l
  induction l with
  | nil =>
    intro m p ha hnd hcov
    simp only [List.foldl_nil, List.append_nil]
    exact ⟨ha, hnd, hcov⟩
  | cons x l ih =>
    intro m p ha hnd hcov
    have ha' : ∀ kg ∈ setAssoc (key x) x m,
        kg.2 = (p ++ [x]).filter fun y => key y == kg.1 :=
      setAssoc_groups key x p m ha hnd (fun y hy he => he ▸ hcov y hy)
    have hnd' : ((setAssoc (key x) x m).map Prod.fst).Nodup := by
      rw [setAssoc_keys]
      by_cases hmem : key x ∈ m.map Prod.fst
      · rw [if_pos hmem]; exact hnd
      · rw [if_neg hmem]
        refine List.Nodup.append hnd (List.nodup_singleton _) ?_
        intro a ha2 hb
        rw [List.mem_singleton] at hb
        subst hb
        exact hmem ha2
    have hcov' : ∀ y ∈ p ++ [x], key y ∈ (setAssoc (key x) x m).map Prod.fst := by
      intro y hy
      rw [setAssoc_keys]
      by_cases hmem : key x ∈ m.map Prod.fst
      · rw [if_pos hmem]
        rcases List.mem_append.mp hy with h | h
        · exact hcov y h
        · rw [List.mem_singleton] at h; subst h; exact hmem
      · rw [if_neg hmem]
        rcases List.mem_append.mp hy with h | h
        · exact List.mem_append.mpr (Or.inl (hcov y h))
        · rw [List.mem_singleton] at h; subst h
          exact List.mem_append.mpr (Or.inr (by simp))
    have := ih (setAssoc (key x) x m) (p ++ [x]) ha' hnd' hcov'
    simpa [List.foldl_cons, List.append_assoc] using this

theorem groupByKey_spec {α : Type} (key : α → JStr) (l : List α) :
    (∀ kg ∈ groupByKey key l, kg.2 = l.filter fun y => key y == kg.1) ∧
      ((groupByKey key l).map Prod.fst).Nodup ∧
      (∀ y ∈ l, key y ∈ (groupByKey key l).map Prod.fst) := by
  have := groupByKey_inv key l [] [] (by simp) (by simp) (by simp)
  simpa [groupByKey] using this

theorem joinFiltersPerm {α : Type} (key : α → JStr) :
    ∀ (l : List α) (keys : List JStr), keys.Nodup → (∀ x ∈ l, key x ∈ keys) →
      ((keys.map fun k => l.filter fun x => key x == k).flatten).Perm l := by
  intro l
  induction l with
  | nil =>
    intro keys _ _
    have : (keys.map fun k => ([] : List α).filter fun x => key x == k) =
        keys.map fun _ => ([] : List α) := by simp
    simp [this, List.flatten_eq_nil_iff]
  | cons x l ih =>
    intro keys hnd hcov
    have hx : key x ∈ keys := hcov x (by simp)
    obtain ⟨s, t, rfl⟩ := List.append_of_mem hx
    have hnd' := List.nodup_middle.mp hnd
    have hxst : key x ∉ s ++ t := (List.nodup_cons.mp hnd').1
    have hxs : key x ∉ s := fun h => hxst (List.mem_append.mpr (Or.inl h))
    have hxt : key x ∉ t := fun h => hxst (List.mem_append.mpr (Or.inr h))
    have hfs : s.map (fun k => (x :: l).filter fun y => key y == k) =
        s.map fun k => l.filter fun y => key y == k := by
      refine List.map_congr_left fun k hk => ?_
      have : ¬ (key x = k) := fun he => hxs (he ▸ hk)
      simp [List.filter_cons, this]
    have hft : t.map (fun k => (x :: l).filter fun y => key y == k) =
        t.map fun k => l.filter fun y => key y == k := by
      refine List.map_congr_left fun k hk => ?_
      have : ¬ (key x = k) := fun he => hxt (he ▸ hk)
      simp [List.filter_cons, this]
    have hfx : (x :: l).filter (fun y => key y == key x) =
        x :: l.filter fun y => key y == key x := by
      simp [List.filter_cons]
    rw [List.map_append, List.map_cons, hfs, hft, hfx, List.flatten_append,
      List.flatten_cons]
    refine List.Perm.trans List.perm_middle ?_
    · refine List.Perm.cons x ?_
      have hcov' : ∀ y ∈ l, key y ∈ s ++ key x :: t := fun y hy => hcov y (by simp [hy])
      have := ih (s ++ key x :: t) hnd hcov'
      simpa [List.map_append, List.flatten_append, List.append_assoc] using this

theorem flatMap_groupByKey_perm {α : Type} (key : α → JStr) (l : List α) :
    ((groupByKey key l).flatMap Prod.snd).Perm l := by
  obtain ⟨ha, hnd, hcov⟩ := groupByKey_spec key l
  have hmap : (groupByKey key l).map Prod.snd =
      (groupByKey key l).map fun kg => l.filter fun x => key x == kg.1 :=
    List.map_congr_left ha
  have h1 : (groupByKey key l).flatMap Prod.snd =
      (((groupByKey key l).map Prod.fst).map fun k =>
        l.filter fun x => key x == k).flatten := by
    rw [List.flatMap_def, hmap, List.map_map]
    rfl
  rw [h1]
  exact joinFiltersPerm key l ((groupByKey key l).map Prod.fst) hnd hcov

/-- Concrete report for the C7 sort example: Bob on 2025-01-02 before
Alice on 2025-01-01 in input order. -/
def c7Report : ProjectReport :=
  { jobName := strLit "J", startDate := strLit "2025-01-01",
    endDate := strLit "2025-01-07", totalEntries := 2, totalHours := 2,
    timeActivities :=
      [{ id := 1, date := strLit "2025-01-02", employeeName := strLit "Bob",
          jobName := strLit "J", hours := 1, minutes := 0, description := [],
          attachments := [] },
        { id := 2, date := strLit "2025-01-01", employeeName := strLit "Alice",
          jobName := strLit "J", hours := 1, minutes := 0, description := [],
          attachments := [] }],
    attachments := [] }

/-- C7.  Entry sort order: the aggregated `entries` list of `formatSage`
is sorted with primary key date ascending and secondary key employee
display name; in particular dates [2025-01-02, 2025-01-01] for
employees [Bob, Alice] come out as [(2025-01-01, Alice),
(2025-01-02, Bob)]. -/
theorem formatSage_entries_sorted (rawReport : ProjectReport) :
    ((formatSage rawReport).entries.Pairwise fun a b =>
      strLtb a.date b.date = true ∨
        (a.date = b.date ∧ strLeb a.employeeName b.employeeName = true)) ∧
      (formatSage c7Report).entries.map (fun e => (e.date, e.employeeName)) =
        [(strLit "2025-01-01", strLit "Alice"), (strLit "2025-01-02", strLit "Bob")] := by
  refine ⟨?_, by decide⟩
  have h : List.Sorted SageLE
      ((rawReport.timeActivities.map toSageEntry).insertionSort SageLE) :=
    List.sorted_insertionSort SageLE _
  have he : (formatSage rawReport).entries =
      (rawReport.timeActivities.map toSageEntry).insertionSort SageLE := rfl
  rw [he]
  refine h.imp fun {a b} hab => ?_
  unfold SageLE sageCmpLe at hab
  by_cases hd : a.date = b.date
  · exact Or.inr ⟨hd, by rwa [if_pos hd] at hab⟩
  · exact Or.inl (by rwa [if_neg hd] at hab)

/-- C10.  Summary partition: the employee summaries' entry lists and the
daily summaries' entry lists each concatenate to a permutation of the
top-level entries list, so the groupings neither drop nor double-count
an entry. -/
theorem formatSage_summary_partition (rawReport : ProjectReport) :
    ((formatSage rawReport).employeeSummaries.flatMap EmployeeSummary.entries).Perm
        (formatSage rawReport).entries ∧
      ((formatSage rawReport).dailySummaries.flatMap DailySummary.entries).Perm
        (formatSage rawReport).entries := by
  constructor
  · have hperm : ((formatSage rawReport).employeeSummaries).Perm
        ((groupByKey SageEntry.employeeName (formatSage rawReport).entries).map
          employeeSummaryOf) :=
      List.perm_insertionSort NameLE _
    refine (hperm.flatMap_right EmployeeSummary.entries).trans ?_
    have : ((groupByKey SageEntry.employeeName (formatSage rawReport).entries).map
        employeeSummaryOf).flatMap EmployeeSummary.entries =
        (groupByKey SageEntry.employeeName (formatSage rawReport).entries).flatMap
          Prod.snd := by
      rw [List.flatMap_map]
      rfl
    rw [this]
    exact flatMap_groupByKey_perm SageEntry.employeeName _
  · have hperm : ((formatSage rawReport).dailySummaries).Perm
        ((groupByKey SageEntry.date (formatSage rawReport).entries).map
          dailySummaryOf) :=
      List.perm_insertionSort DateLE _
    refine (hperm.flatMap_right DailySummary.entries).trans ?_
    have : ((groupByKey SageEntry.date (formatSage rawReport).entries).map
        dailySummaryOf).flatMap DailySummary.entries =
        (groupByKey SageEntry.date (formatSage rawReport).entries).flatMap
          Prod.snd := by
      rw [List.flatMap_map]
      rfl
    rw [this]
    exact flatMap_groupByKey_perm SageEntry.date _

/-- C8 (amended).  Employee grouping: the summaries are sorted
alphabetically by employee name (not insertion order); each summary's
total is the rounded sum of exactly its employee's entry hours; each
summary's entry list is exactly that employee's slice of the sorted
entries, hence date-ordered. -/
theorem formatSage_employeeSummaries_spec (rawReport : ProjectReport) :
    (formatSage rawReport).employeeSummaries.Pairwise
        (fun a b => strLeb a.name b.name = true) ∧
      ∀ s ∈ (formatSage rawReport).employeeSummaries,
        s.totalHours = round2 (s.entries.foldl (fun sum e => sum + e.hours) 0) ∧
          s.entries = (formatSage rawReport).entries.filter
            (fun e => e.employeeName == s.name) ∧
          s.entries.Pairwise fun a b => strLeb a.date b.date = true := by
  have hgs := groupByKey_spec SageEntry.employeeName (formatSage rawReport).entries
  have hsumm : (formatSage rawReport).employeeSummaries =
      ((groupByKey SageEntry.employeeName (formatSage rawReport).entries).map
        employeeSummaryOf).insertionSort NameLE := rfl
  constructor
  · rw [hsumm]
    exact List.sorted_insertionSort NameLE _
  · intro s hs
    rw [hsumm] at hs
    have hs2 : s ∈ (groupByKey SageEntry.employeeName (formatSage rawReport).entries).map
        employeeSummaryOf := (List.perm_insertionSort NameLE _).mem_iff.mp hs
    obtain ⟨kg, hkg, rfl⟩ := List.mem_map.mp hs2
    have hfil : kg.2 = (formatSage rawReport).entries.filter
        (fun e => e.employeeName == kg.1) := hgs.1 kg hkg
    refine ⟨rfl, hfil, ?_⟩
    have hsorted : (formatSage rawReport).entries.Pairwise SageLE :=
      List.sorted_insertionSort SageLE _
    have hsub : List.Sublist kg.2 (formatSage rawReport).entries := by
      rw [hfil]
      exact List.filter_sublist _
    exact (hsorted.sublist hsub).imp fun {a b} h => sageLE_dateLe h

/-- First concrete activity for the C8 counterexample: the later date
with the alphabetically earlier employee. -/
def exA1 : TimeActivity :=
  { id := 1, date := strLit "2025-01-02", employeeName := strLit "Alice",
    jobName := strLit "J", hours := 1, minutes := 0, description := [],
    attachments := [] }

/-- Second concrete activity for the C8 counterexample: the earlier date
with the alphabetically later employee. -/
def exA2 : TimeActivity :=
  { id := 2, date := strLit "2025-01-01", employeeName := strLit "Zed",
    jobName := strLit "J", hours := 2, minutes := 0, description := [],
    attachments := [] }

/-- Concrete raw report for the C8 counterexample. -/
def exReportC8 : ProjectReport :=
  { jobName := strLit "J", startDate := strLit "2025-01-01",
    endDate := strLit "2025-01-07", totalEntries := 2, totalHours := 3,
    timeActivities := [exA1, exA2], attachments := [] }

/-- C8 counterexample: in the sorted entries Zed (2025-01-01) appears
before Alice (2025-01-02), so first-occurrence insertion order is
[Zed, Alice]; but the code emits the employee summaries sorted by name,
[Alice, Zed], refuting the claimed stable-insertion order. -/
theorem formatSage_employee_order_counterexample :
    (formatSage exReportC8).entries.map SageEntry.employeeName =
        [strLit "Zed", strLit "Alice"] ∧
      (formatSage exReportC8).employeeSummaries.map EmployeeSummary.name =
        [strLit "Alice", strLit "Zed"] ∧
      (formatSage exReportC8).employeeSummaries.map EmployeeSummary.name ≠
        [strLit "Zed", strLit "Alice"] := by
  refine ⟨?_, ?_, ?_⟩ <;> decide

/-- Witness for C8 (amended), at the concrete report `exReportC8`: the
Alice summary is a member and its total is the rounded sum of its own
entries' hours. -/
theorem formatSage_employeeSummaries_spec_witness :
    employeeSummaryOf (strLit "Alice", [toSageEntry exA1]) ∈
        (formatSage exReportC8).employeeSummaries ∧
      (employeeSummaryOf (strLit "Alice", [toSageEntry exA1])).totalHours =
        round2 ((employeeSummaryOf (strLit "Alice",
          [toSageEntry exA1])).entries.foldl (fun sum e => sum + e.hours) 0) := by
  have hS : (formatSage exReportC8).employeeSummaries =
      [employeeSummaryOf (strLit "Alice", [toSageEntry exA1]),
        employeeSummaryOf (strLit "Zed", [toSageEntry exA2])] := rfl
  have hmem : employeeSummaryOf (strLit "Alice", [toSageEntry exA1]) ∈
      (formatSage exReportC8).employeeSummaries := by
    rw [hS]
    exact List.mem_cons_self _ _
  exact ⟨hmem, ((formatSage_employeeSummaries_spec exReportC8).2 _ hmem).1⟩

/-- Concrete timesheet with duration 3599 seconds (59 min 59 s), the
failing input of C9. -/
def tsC9 : TimesheetWithDetails :=
  { id := 1, user_id := 1, jobcode_id := 1, duration := 3599,
    date := strLit "2025-01-01", notes := none, attached_files := none,
    user := none, jobcode := none, files := [] }

/-- C9.  The hour/minute decomposition of `getProjectReport` has no
carry guard: at duration 3599 the source computes `hours = 0` and
`minutes = Math.round(59.983...) = 60`, so the transformed activity
carries the pair (0, 60) — `minutes < 60` is violated. -/
theorem duration_3599_minutes_sixty :
    entryHours 3599 = 0 ∧ entryMinutes 3599 = 60 ∧
      (transformActivity 1 [] tsC9).map (fun a => (a.hours, a.minutes)) =
        some (0, 60) := by
  have h1 : entryHours 3599 = 0 := by
    unfold entryHours durationHours
    norm_num
  have h2 : entryMinutes 3599 = 60 := by
    unfold entryMinutes jsRound durationHours
    rw [h1]
    norm_num
  refine ⟨h1, h2, ?_⟩
  simp only [transformActivity, tsC9, Option.map_some]
  simp [h1, h2]

/-- First node of the cyclic directory of C2: its parent is node 2. -/
def cycJob1 : Jobcode := { id := 1, parent_id := some 2, name := strLit "A", short_code := none }

/-- Second node of the cyclic directory of C2: its parent is node 1. -/
def cycJob2 : Jobcode := { id := 2, parent_id := some 1, name := strLit "B", short_code := none }

/-- The cyclic two-node directory `{1: parent=2, 2: parent=1}`. -/
def cycDir : List Jobcode := [cycJob1, cycJob2]

/-- C2.  On the cyclic directory both the descendant enumeration and the
path builder exhaust every finite recursion budget: there is no hop
limit in the source, so on this input it recurses/loops forever instead
of returning a best-effort partial result. -/
theorem cycle_divergence : ∀ fuel : Nat,
    (getAllDescendants fuel 1 cycDir = none ∧
        getAllDescendants fuel 2 cycDir = none) ∧
      (∀ parts, buildJobPathGo fuel cycDir cycJob1 parts = none ∧
        buildJobPathGo fuel cycDir cycJob2 parts = none) ∧
      buildJobPath fuel cycDir (some cycJob1) = none ∧
      buildJobPath fuel cycDir (some cycJob2) = none := by
  intro fuel
  induction fuel with
  | zero => exact ⟨⟨rfl, rfl⟩, fun _ => ⟨rfl, rfl⟩, rfl, rfl⟩
  | succ f ih =>
    have hg1 : getAllDescendants (f + 1) 1 cycDir = none := by
      show (match descendantsMany (fun pid => getAllDescendants f pid cycDir)
          (cycDir.filter fun jc => jc.parent_id == some 1) with
        | none => none
        | some rest =>
          some ((cycDir.filter fun jc => jc.parent_id == some 1).map Jobcode.id ++ rest)) = none
      have hc : cycDir.filter (fun jc => jc.parent_id == some 1) = [cycJob2] := by decide
      rw [hc]
      show (match (match getAllDescendants f 2 cycDir with
        | none => none
        | some r =>
          match descendantsMany (fun pid => getAllDescendants f pid cycDir) [] with
          | none => none
          | some rs => some (r ++ rs)) with
        | none => (none : Option (List Nat))
        | some rest => some ([cycJob2].map Jobcode.id ++ rest)) = none
      rw [ih.1.2]
    have hg2 : getAllDescendants (f + 1) 2 cycDir = none := by
      show (match descendantsMany (fun pid => getAllDescendants f pid cycDir)
          (cycDir.filter fun jc => jc.parent_id == some 2) with
        | none => none
        | some rest =>
          some ((cycDir.filter fun jc => jc.parent_id == some 2).map Jobcode.id ++ rest)) = none
      have hc : cycDir.filter (fun jc => jc.parent_id == some 2) = [cycJob1] := by decide
      rw [hc]
      show (match (match getAllDescendants f 1 cycDir with
        | none => none
        | some r =>
          match descendantsMany (fun pid => getAllDescendants f pid cycDir) [] with
          | none => none
          | some rs => some (r ++ rs)) with
        | none => (none : Option (List Nat))
        | some rest => some ([cycJob1].map Jobcode.id ++ rest)) = none
      rw [ih.1.1]
    have hb : ∀ parts, buildJobPathGo (f + 1) cycDir cycJob1 parts = none ∧
        buildJobPathGo (f + 1) cycDir cycJob2 parts = none := by
      intro parts
      constructor
      · show (if parentTruthy cycJob1 then
            match cycJob1.parent_id with
            | some pid =>
              match lookupJobcode cycDir pid with
              | some p => buildJobPathGo f cycDir p (displayName cycJob1 :: parts)
              | none => some (displayName cycJob1 :: parts)
            | none => some (displayName cycJob1 :: parts)
          else some (displayName cycJob1 :: parts)) = none
        have ht : parentTruthy cycJob1 = true := by decide
        have hl : lookupJobcode cycDir 2 = some cycJob2 := by decide
        rw [ht, if_pos rfl]
        show (match lookupJobcode cycDir 2 with
          | some p => buildJobPathGo f cycDir p (displayName cycJob1 :: parts)
          | none => some (displayName cycJob1 :: parts)) = none
        rw [hl]
        exact (ih.2.1 (displayName cycJob1 :: parts)).2
      · show (if parentTruthy cycJob2 then
            match cycJob2.parent_id with
            | some pid =>
              match lookupJobcode cycDir pid with
              | some p => buildJobPathGo f cycDir p (displayName cycJob2 :: parts)
              | none => some (displayName cycJob2 :: parts)
            | none => some (displayName cycJob2 :: parts)
          else some (displayName cycJob2 :: parts)) = none
        have ht : parentTruthy cycJob2 = true := by decide
        have hl : lookupJobcode cycDir 1 = some cycJob1 := by decide
        rw [ht, if_pos rfl]
        show (match lookupJobcode cycDir 1 with
          | some p => buildJobPathGo f cycDir p (displayName cycJob2 :: parts)
          | none => some (displayName cycJob2 :: parts)) = none
        rw [hl]
        exact (ih.2.1 (displayName cycJob2 :: parts)).1
    refine ⟨⟨hg1, hg2⟩, hb, ?_, ?_⟩
    · show (match buildJobPathGo (f + 1) cycDir cycJob1 [] with
        | none => none
        | some parts => some ((parts.intersperse (strLit " › ")).flatten)) = none
      rw [(hb []).1]
    · show (match buildJobPathGo (f + 1) cycDir cycJob2 [] with
        | none => none
        | some parts => some ((parts.intersperse (strLit " › ")).flatten)) = none
      rw [(hb []).2]

/-- Root node of the C6 example directory: name "A", short code "100". -/
def pathJob1 : Jobcode :=
  { id := 1, parent_id := none, name := strLit "A", short_code := some (strLit "100") }

/-- Child node of the C6 example directory: name "B", short code "200",
parent node 1. -/
def pathJob2 : Jobcode :=
  { id := 2, parent_id := some 1, name := strLit "B", short_code := some (strLit "200") }

/-- A node whose parent id (99) is absent from the directory. -/
def pathJob3 : Jobcode :=
  { id := 3, parent_id := some 99, name := strLit "C", short_code := none }

/-- The C6 example directory. -/
def pathDir : List Jobcode := [pathJob1, pathJob2, pathJob3]

/-- A timesheet with no resolved jobcode, for the `'Unknown'` branch. -/
def tsNoJob : TimesheetWithDetails :=
  { id := 7, user_id := 1, jobcode_id := 5, duration := 3600,
    date := strLit "2025-01-01", notes := none, attached_files := none,
    user := none, jobcode := none, files := [] }

/-- C6.  Path correctness: on `{1: A/100 root, 2: B/200 child of 1}` the
path of node 2 is exactly "A 100 › B 200" (fragments `name short_code`
joined root-to-leaf with " › "), for every sufficient fuel; traversal
stops at a node with no parent (node 1) and at a parent missing from the
directory (node 3); an absent jobcode yields the literal "Unknown", both
in `buildJobPath` and in the transform's `jobName` assembly. -/
theorem buildJobPath_example : ∀ f : Nat,
    buildJobPath (f + 2) pathDir (some pathJob2) = some (strLit "A 100 › B 200") ∧
      buildJobPath (f + 1) pathDir (some pathJob1) = some (strLit "A 100") ∧
      buildJobPath (f + 1) pathDir (some pathJob3) = some (strLit "C") ∧
      buildJobPath f pathDir none = some (strLit "Unknown") ∧
      (transformActivity f pathDir tsNoJob).map (fun a => a.jobName) =
        some (strLit "Unknown") := by
  intro f
  exact ⟨rfl, rfl, rfl, rfl, rfl⟩

theorem fetchedFiles_error {c : Collab} {msg : JStr} (tss : List Timesheet)
    (herr : ∀ ids, c.files ids = Except.error msg) : fetchedFiles c tss = [] := by
  unfold fetchedFiles
  by_cases h1 : (tss.filter fun ts =>
      match ts.attached_files with
      | some fs => !fs.isEmpty
      | none => false).isEmpty
  · rw [if_pos h1]
  · rw [if_neg h1]
    by_cases h2 : (jsUniq ((tss.filter fun ts =>
        match ts.attached_files with
        | some fs => !fs.isEmpty
        | none => false).flatMap fun ts => ts.attached_files.getD [])).isEmpty
    · rw [if_pos h2]
    · rw [if_neg h2, herr]

theorem getTimesheets_shape {fuel : Nat} {c : Collab} {jobcodeName : Option JStr}
    {jobcodeId : Option Nat} {res : List TimesheetWithDetails}
    (hres : getTimesheetsForDateRange fuel c jobcodeName jobcodeId = some res) :
    res = [] ∨
      ∃ flt : Option (List Nat),
        res = (c.timesheets flt).map
          (enrichTimesheet (usersOf c (c.timesheets flt)) (mergedJobcodesOf c)
            (fetchedFiles c (c.timesheets flt))) := by
  simp only [getTimesheetsForDateRange] at hres
  cases hro : resolveJobcodeFilter fuel c.jobcodes jobcodeName jobcodeId with
  | none => rw [hro] at hres; exact absurd hres (by simp)
  | some outcome =>
    rw [hro] at hres
    cases outcome with
    | notFound =>
      simp only [Option.some.injEq] at hres
      exact Or.inl hres.symm
    | noFilter =>
      simp only [] at hres
      by_cases hemp : (c.timesheets none).isEmpty
      · rw [if_pos hemp] at hres
        simp only [Option.some.injEq] at hres
        exact Or.inl hres.symm
      · rw [if_neg hemp] at hres
        simp only [Option.some.injEq] at hres
        exact Or.inr ⟨none, hres.symm⟩
    | withFilter ids =>
      simp only [] at hres
      by_cases hemp : (c.timesheets (some ids)).isEmpty
      · rw [if_pos hemp] at hres
        simp only [Option.some.injEq] at hres
        exact Or.inl hres.symm
      · rw [if_neg hemp] at hres
        simp only [Option.some.injEq] at hres
        exact Or.inr ⟨some ids, hres.symm⟩

/-- C3.  Partial-file-failure resilience: when the file fetch throws,
`getTimesheetsForDateRange` still returns the enriched entries, each
with an empty `files` list; and in general an enriched entry's `files`
are exactly the fetched records whose ids appear in its
`attached_files`, missing ids being silently dropped. -/
theorem files_failure_resilience (fuel : Nat) (c : Collab)
    (jobcodeName : Option JStr) (jobcodeId : Option Nat)
    (res : List TimesheetWithDetails) (msg : JStr)
    (hres : getTimesheetsForDateRange fuel c jobcodeName jobcodeId = some res)
    (herr : ∀ ids, c.files ids = Except.error msg) :
    (∀ e ∈ res, e.files = []) ∧
      ∀ (users : List User) (merged : List Jobcode) (files : List File)
        (ts : Timesheet) (f : File),
        f ∈ (enrichTimesheet users merged files ts).files ↔
          ∃ fid ∈ ts.attached_files.getD [],
            files.find? (fun fl => fl.id == fid) = some f := by
  constructor
  · intro e he
    rcases getTimesheets_shape hres with rfl | ⟨flt, rfl⟩
    · simp at he
    · obtain ⟨ts, _, rfl⟩ := List.mem_map.mp he
      show ((ts.attached_files.getD []).filterMap fun fileId =>
        (fetchedFiles c (c.timesheets flt)).find? fun f => f.id == fileId) = []
      rw [fetchedFiles_error _ herr]
      simp
  · intro users merged files ts f
    show f ∈ ((ts.attached_files.getD []).filterMap fun fileId =>
        files.find? fun fl => fl.id == fileId) ↔ _
    rw [List.mem_filterMap]

/-- Concrete timesheet with an attached-file reference, for the C3
witness. -/
def c3Ts : Timesheet :=
  { id := 11, user_id := 1, jobcode_id := 1, duration := 3600,
    date := strLit "2025-01-01", notes := none, attached_files := some [7] }

/-- Collaborator data whose file fetch always throws. -/
def c3Collab : Collab :=
  { jobcodes := []
    timesheets := fun _ => [c3Ts]
    supplementalJobcodes := none
    supplementalUsers := some []
    users := fun _ => []
    files := fun _ => Except.error (strLit "boom") }

/-- The entry the failing-files pipeline run returns: enriched, with
`files := []`. -/
def c3Enriched : TimesheetWithDetails :=
  { toTimesheet := c3Ts, user := none, jobcode := none, files := [] }

/-- Witness for C3 at a concrete collaborator whose file fetch throws:
the pipeline still returns the enriched entry, with empty files. -/
theorem files_failure_resilience_witness :
    getTimesheetsForDateRange 1 c3Collab none none = some [c3Enriched] ∧
      (∀ ids, c3Collab.files ids = Except.error (strLit "boom")) ∧
      ∀ e ∈ [c3Enriched], e.files = [] :=
  ⟨by decide, fun _ => rfl,
    (files_failure_resilience 1 c3Collab none none [c3Enriched] (strLit "boom")
      (by decide) (fun _ => rfl)).1⟩

theorem resolve_notFound {fuel : Nat} {dir : List Jobcode}
    {projectName : Option JStr} {jobcodeId : Option Nat}
    (href : (∃ jid, jobcodeId = some jid ∧ jid ≠ 0 ∧ lookupJobcode dir jid = none) ∨
      (natTruthy jobcodeId = none ∧ ∃ nm, projectName = some nm ∧ ¬ nm.isEmpty ∧
        (jsParseInt nm).bind (fun n => lookupJobcodeInt dir n) = none ∧
        dir.filter (nameMatches nm) = [])) :
    resolveJobcodeFilter fuel dir projectName jobcodeId =
      some ResolveOutcome.notFound := by
  rcases href with ⟨jid, rfl, hnz, hlook⟩ | ⟨hnt, nm, rfl, hne, hpi, hfil⟩
  · simp [resolveJobcodeFilter, natTruthy, hnz, hlook]
  · simp [resolveJobcodeFilter, strTruthy, hnt, hne, hpi, hfil]

/-- C4 (amended).  NotFound is an empty report: when the reference is a
nonzero direct numeric id absent from the directory, or a nonempty name
that neither resolves via the numeric-id shortcut nor substring-matches
any jobcode, the pipeline returns zero entries and the report tool
returns the zeroed report, without any failure.  (For the falsy id 0 the
source skips the filter entirely; see the counterexample.) -/
theorem notFound_empty_report (fuel : Nat) (c : Collab) (jobcodeMap : List Jobcode)
    (startDate endDate : JStr) (projectName : Option JStr) (jobcodeId : Option Nat)
    (href : (∃ jid, jobcodeId = some jid ∧ jid ≠ 0 ∧
        lookupJobcode c.jobcodes jid = none) ∨
      (natTruthy jobcodeId = none ∧ ∃ nm, projectName = some nm ∧ ¬ nm.isEmpty ∧
        (jsParseInt nm).bind (fun n => lookupJobcodeInt c.jobcodes n) = none ∧
        c.jobcodes.filter (nameMatches nm) = [])) :
    getTimesheetsForDateRange fuel c projectName jobcodeId = some [] ∧
      getProjectReport fuel c jobcodeMap startDate endDate projectName jobcodeId =
        some (emptyProjectReport (resolvedNameOf projectName jobcodeId)
          startDate endDate) := by
  have hres : getTimesheetsForDateRange fuel c projectName jobcodeId = some [] := by
    simp only [getTimesheetsForDateRange, resolve_notFound href]
  refine ⟨hres, ?_⟩
  simp only [getProjectReport, hres, List.isEmpty_nil, if_pos]

/-- Concrete timesheet for the C4 counterexample. -/
def c4Ts : Timesheet :=
  { id := 21, user_id := 1, jobcode_id := 9, duration := 3600,
    date := strLit "2025-01-01", notes := none, attached_files := none }

/-- Collaborator data for the C4 counterexample: one jobcode (id 1) and
one timesheet in range. -/
def c4Collab : Collab :=
  { jobcodes := [{ id := 1, parent_id := none, name := strLit "A", short_code := none }]
    timesheets := fun _ => [c4Ts]
    supplementalJobcodes := none
    supplementalUsers := some []
    users := fun _ => []
    files := fun _ => Except.ok [] }

/-- C4 counterexample: the numeric reference 0 matches no jobcode in the
directory, yet the pipeline does not return an empty result — `0` is
falsy in `if (jobcodeId)`, so the source treats it as "no filter" and
returns every timesheet in range; the report carries 1 entry, not 0. -/
theorem notFound_zero_id_counterexample :
    lookupJobcode c4Collab.jobcodes 0 = none ∧
      (getTimesheetsForDateRange 1 c4Collab none (some 0)).map List.length =
        some 1 ∧
      (getProjectReport 1 c4Collab [] (strLit "2025-01-01") (strLit "2025-01-07")
          none (some 0)).map ProjectReport.totalEntries = some 1 := by
  refine ⟨?_, ?_, ?_⟩ <;> decide

/-- Witness for C4 (amended): a direct numeric reference (42) absent
from the concrete directory yields the empty pipeline result and the
zeroed report. -/
theorem notFound_empty_report_witness :
    ((∃ jid, (some 42 : Option Nat) = some jid ∧ jid ≠ 0 ∧
        lookupJobcode c4Collab.jobcodes jid = none) ∨
      (natTruthy (some 42) = none ∧ ∃ nm, (none : Option JStr) = some nm ∧
        ¬ nm.isEmpty ∧
        (jsParseInt nm).bind (fun n => lookupJobcodeInt c4Collab.jobcodes n) = none ∧
        c4Collab.jobcodes.filter (nameMatches nm) = [])) ∧
      getTimesheetsForDateRange 3 c4Collab none (some 42) = some [] ∧
      getProjectReport 3 c4Collab [] (strLit "2025-01-01") (strLit "2025-01-07")
          none (some 42) =
        some (emptyProjectReport (resolvedNameOf none (some 42))
          (strLit "2025-01-01") (strLit "2025-01-07")) :=
  ⟨Or.inl ⟨42, rfl, by decide, by decide⟩,
    notFound_empty_report 3 c4Collab [] (strLit "2025-01-01") (strLit "2025-01-07")
      none (some 42) (Or.inl ⟨42, rfl, by decide, by decide⟩)⟩

/-- C5.  Free-text resolution: if the reference parses as an integer
that is a key of the directory, it is a direct id match and the filter
is that jobcode's id plus its descendants; otherwise the candidate set
is exactly the jobcodes whose lowered `name` or truthy lowered
`short_code` contains the lowered reference — empty candidates mean
NotFound, and every candidate's id enters the filter. -/
theorem name_resolution_spec (fuel : Nat) (dir : List Jobcode) (nm : JStr)
    (hne : ¬ nm.isEmpty) :
    (∀ jc, ((jsParseInt nm).bind fun n => lookupJobcodeInt dir n) = some jc →
      ∀ ds, getAllDescendants fuel jc.id dir = some ds →
        resolveJobcodeFilter fuel dir (some nm) none =
          some (ResolveOutcome.withFilter (jc.id :: ds))) ∧
      (((jsParseInt nm).bind fun n => lookupJobcodeInt dir n) = none →
        (∀ jc, jc ∈ dir.filter (nameMatches nm) ↔ jc ∈ dir ∧
          (strContains (toLowerStr jc.name) (toLowerStr nm) = true ∨
            ∃ sc, jc.short_code = some sc ∧ ¬ sc.isEmpty ∧
              strContains (toLowerStr sc) (toLowerStr nm) = true)) ∧
          (dir.filter (nameMatches nm) = [] →
            resolveJobcodeFilter fuel dir (some nm) none =
              some ResolveOutcome.notFound) ∧
          ∀ ids, resolveJobcodeFilter fuel dir (some nm) none =
              some (ResolveOutcome.withFilter ids) →
            ∀ jc ∈ dir.filter (nameMatches nm), jc.id ∈ ids) := by
  have hneF : nm.isEmpty = false := Bool.eq_false_iff.mpr hne
  refine ⟨?_, fun hpi => ⟨?_, ?_, ?_⟩⟩
  · intro jc hjc ds hds
    simp [resolveJobcodeFilter, natTruthy, strTruthy, hneF, hjc, hds]
  · intro jc
    rw [List.mem_filter]
    constructor
    · rintro ⟨hmem, hmatch⟩
      refine ⟨hmem, ?_⟩
      cases hsc : jc.short_code with
      | none =>
        simp only [nameMatches, hsc, Bool.or_false] at hmatch
        exact Or.inl hmatch
      | some sc =>
        simp only [nameMatches, hsc, Bool.or_eq_true, Bool.and_eq_true,
          Bool.not_eq_true'] at hmatch
        rcases hmatch with h | ⟨h1, h2⟩
        · exact Or.inl h
        · exact Or.inr ⟨sc, rfl, by simp [h1], h2⟩
    · rintro ⟨hmem, hmatch⟩
      refine ⟨hmem, ?_⟩
      rcases hmatch with h | ⟨sc, hsc, hscne, hsub⟩
      · simp [nameMatches, h]
      · have h1 : sc.isEmpty = false := Bool.eq_false_iff.mpr hscne
        simp [nameMatches, hsc, hsub, h1]
  · intro hfil
    have hfil2 : ∀ a ∈ dir, nameMatches nm a = false := fun a ha =>
      Bool.eq_false_iff.mpr (List.filter_eq_nil_iff.mp hfil a ha)
    simp [resolveJobcodeFilter, natTruthy, strTruthy, hneF, hpi, hfil, hfil2]
  · intro ids hres jc hjc
    by_cases hall : ∀ a ∈ dir, nameMatches nm a = false
    · have hnil : dir.filter (nameMatches nm) = [] :=
        List.filter_eq_nil_iff.mpr fun a ha => by simp [hall a ha]
      rw [hnil] at hjc
      simp at hjc
    · cases hdm : descendantsMany (fun pid => getAllDescendants fuel pid dir)
          (dir.filter (nameMatches nm)) with
      | none =>
        have hnone : resolveJobcodeFilter fuel dir (some nm) none = none := by
          simp [resolveJobcodeFilter, natTruthy, strTruthy, hneF, hpi, hall, hdm]
        rw [hnone] at hres
        exact absurd hres (by simp)
      | some allDs =>
        have hval : resolveJobcodeFilter fuel dir (some nm) none =
            some (ResolveOutcome.withFilter
              ((dir.filter (nameMatches nm)).map Jobcode.id ++ allDs)) := by
          simp [resolveJobcodeFilter, natTruthy, strTruthy, hneF, hpi, hall, hdm]
        rw [hval] at hres
        simp only [Option.some.injEq, ResolveOutcome.withFilter.injEq] at hres
        rw [← hres]
        exact List.mem_append.mpr (Or.inl (List.mem_map_of_mem Jobcode.id hjc))

/-- Concrete directory for the C5 witness: ids 2 (parent) and 3 (child
of 2). -/
def c5Dir : List Jobcode :=
  [{ id := 2, parent_id := none, name := strLit "Alpha", short_code := some (strLit "100") },
    { id := 3, parent_id := some 2, name := strLit "Beta", short_code := none }]

/-- Witness for C5: the reference "2" takes the numeric-id shortcut and
the filter becomes [2, 3]; the reference "alp" goes through name
matching and resolves to a filter containing the Alpha jobcode's id. -/
theorem name_resolution_spec_witness :
    (¬ (strLit "2").isEmpty ∧
      resolveJobcodeFilter 3 c5Dir (some (strLit "2")) none =
        some (ResolveOutcome.withFilter [2, 3])) ∧
      (¬ (strLit "alp").isEmpty ∧
        resolveJobcodeFilter 3 c5Dir (some (strLit "alp")) none =
          some ResolveOutcome.notFound → False) ∧
      (∀ jc ∈ c5Dir.filter (nameMatches (strLit "alp")), jc.id ∈ [2, 3]) :=
  ⟨⟨by decide,
    (name_resolution_spec 3 c5Dir (strLit "2") (by decide)).1
      { id := 2, parent_id := none, name := strLit "Alpha",
        short_code := some (strLit "100") } (by decide) [3] (by decide)⟩,
    fun h => by
      have := h.2
      rw [show resolveJobcodeFilter 3 c5Dir (some (strLit "alp")) none =
        some (ResolveOutcome.withFilter [2, 3]) from by decide] at this
      exact absurd this (by decide),
    ((name_resolution_spec 3 c5Dir (strLit "alp") (by decide)).2 (by decide)).2.2
      [2, 3] (by decide)⟩

/-- A downward parent-chain of the directory: `Chain dir pid [M1, ..., Mk]`
holds when M1's parent is the node id `pid`, each later node's parent is
the node before it, and every node is in `dir`. -/
inductive Chain (dir : List Jobcode) : Nat → List Jobcode → Prop where
  | nil {pid : Nat} : Chain dir pid []
  | cons {pid : Nat} {M : Jobcode} {cs : List Jobcode} :
      M ∈ dir → M.parent_id = some pid → Chain dir M.id cs → Chain dir pid (M :: cs)

/-- The directory's parent links are acyclic: no nonempty chain leads
from a node's id back to the node itself. -/
def Acyclic (dir : List Jobcode) : Prop :=
  ∀ (M : Jobcode) (cs : List Jobcode), M ∈ dir → ¬ Chain dir M.id (cs ++ [M])

theorem chain_mem_dir {dir : List Jobcode} {pid : Nat} {cs : List Jobcode}
    (h : Chain dir pid cs) : ∀ x ∈ cs, x ∈ dir := by
  induction h with
  | nil => simp
  | cons hM _ _ ih =>
    intro x hx
    rcases List.mem_cons.mp hx with rfl | hx
    · exact hM
    · exact ih x hx

theorem chain_prefix {dir : List Jobcode} {cs ds : List Jobcode} :
    ∀ {pid : Nat}, Chain dir pid (cs ++ ds) → Chain dir pid cs := by
  induction cs with
  | nil => intro _ _; exact Chain.nil
  | cons M cs ih =>
    intro pid h
    cases h with
    | cons hM hpar hc => exact Chain.cons hM hpar (ih hc)

theorem chain_suffix {dir : List Jobcode} {M : Jobcode} {ds : List Jobcode} :
    ∀ (cs : List Jobcode) {pid : Nat}, Chain dir pid (cs ++ M :: ds) →
      Chain dir M.id ds := by
  intro cs
  induction cs with
  | nil =>
    intro pid h
    cases h with
    | cons _ _ hc => exact hc
  | cons N cs ih =>
    intro pid h
    cases h with
    | cons _ _ hc => exact ih hc

theorem chain_ids_nodup {dir : List Jobcode} {pid : Nat} {cs : List Jobcode}
    (hkey : IdKeyed dir) (hacyc : Acyclic dir) (h : Chain dir pid cs) :
    (cs.map Jobcode.id).Nodup := by
  induction h with
  | nil => simp
  | @cons pid M cs hM hpar hc ih =>
    rw [List.map_cons, List.nodup_cons]
    refine ⟨?_, ih⟩
    intro hmem
    obtain ⟨N, hN, hNid⟩ := List.mem_map.mp hmem
    have hNM : N = M :=
      List.inj_on_of_nodup_map hkey (chain_mem_dir hc N hN) hM hNid
    subst hNM
    obtain ⟨c1, c2, hsplit⟩ := List.append_of_mem hN
    rw [hsplit] at hc
    have hpre : Chain dir N.id (c1 ++ [N]) := by
      have : Chain dir N.id ((c1 ++ [N]) ++ c2) := by
        simpa [List.append_assoc] using hc
      exact chain_prefix this
    exact hacyc N c1 (chain_mem_dir hc N (by simp)) hpre

theorem chain_length_le {dir : List Jobcode} {pid : Nat} {cs : List Jobcode}
    (hkey : IdKeyed dir) (hacyc : Acyclic dir) (h : Chain dir pid cs) :
    cs.length ≤ dir.length := by
  have hnd := chain_ids_nodup hkey hacyc h
  have hsub : ∀ x ∈ cs.map Jobcode.id, x ∈ dir.map Jobcode.id := by
    intro x hx
    obtain ⟨N, hN, rfl⟩ := List.mem_map.mp hx
    exact List.mem_map_of_mem _ (chain_mem_dir h N hN)
  calc cs.length = (cs.map Jobcode.id).length := (List.length_map _ _).symm
    _ = (cs.map Jobcode.id).toFinset.card := (List.toFinset_card_of_nodup hnd).symm
    _ ≤ (dir.map Jobcode.id).toFinset.card :=
      Finset.card_le_card fun x hx =>
        List.mem_toFinset.mpr (hsub x (List.mem_toFinset.mp hx))
    _ ≤ (dir.map Jobcode.id).length := List.toFinset_card_le _
    _ = dir.length := List.length_map _ _

theorem descendantsMany_ne_none {recurse : Nat → Option (List Nat)} :
    ∀ cs : List Jobcode, (∀ c ∈ cs, recurse c.id ≠ none) →
      descendantsMany recurse cs ≠ none := by
  intro cs
  induction cs with
  | nil => intro _; simp [descendantsMany]
  | cons c cs ih =>
    intro hall
    cases hr : recurse c.id with
    | none => exact absurd hr (hall c (by simp))
    | some r =>
      cases hds : descendantsMany recurse cs with
      | none => exact absurd hds (ih fun c2 h2 => hall c2 (List.mem_cons_of_mem _ h2))
      | some rs =>
        show (match recurse c.id with
          | none => none
          | some r =>
            match descendantsMany recurse cs with
            | none => none
            | some rs => some (r ++ rs)) ≠ none
        rw [hr, hds]
        simp

theorem getAllDescendants_ne_none {dir : List Jobcode} :
    ∀ (fuel n pid : Nat),
      (∀ M cs, Chain dir pid (cs ++ [M]) → cs.length + 1 ≤ n) → n < fuel →
      getAllDescendants fuel pid dir ≠ none := by
  intro fuel
  induction fuel with
  | zero => intro n pid _ h; exact absurd h (Nat.not_lt_zero n)
  | succ f ih =>
    intro n pid hbound hlt
    show (match descendantsMany (fun q => getAllDescendants f q dir)
        (dir.filter fun jc => jc.parent_id == some pid) with
      | none => none
      | some rest =>
        some ((dir.filter fun jc => jc.parent_id == some pid).map Jobcode.id ++ rest)) ≠ none
    cases hdm : descendantsMany (fun q => getAllDescendants f q dir)
        (dir.filter fun jc => jc.parent_id == some pid) with
    | some rest => simp
    | none =>
      exfalso
      refine descendantsMany_ne_none _ ?_ hdm
      intro c hc
      have hcd : c ∈ dir ∧ c.parent_id = some pid := by
        have := List.mem_filter.mp hc
        exact ⟨this.1, by simpa using this.2⟩
      have hone : 1 ≤ n := hbound c [] (Chain.cons hcd.1 hcd.2 Chain.nil)
      refine ih (n - 1) c.id ?_ (by omega)
      intro M cs2 hch
      have : Chain dir pid ((c :: cs2) ++ [M]) :=
        Chain.cons hcd.1 hcd.2 hch
      have := hbound M (c :: cs2) this
      simp only [List.length_cons] at this
      omega

theorem descendantsMany_mem {recurse : Nat → Option (List Nat)} :
    ∀ (cs : List Jobcode) (out : List Nat), descendantsMany recurse cs = some out →
      ∀ c ∈ cs, ∃ r, recurse c.id = some r ∧ ∀ x ∈ r, x ∈ out := by
  intro cs
  induction cs with
  | nil => intro out _ c hc; exact absurd hc (by simp)
  | cons c0 cs ih =>
    intro out hout c hc
    have hout' : (match recurse c0.id with
      | none => none
      | some r =>
        match descendantsMany recurse cs with
        | none => none
        | some rs => some (r ++ rs)) = some out := hout
    cases hr0 : recurse c0.id with
    | none => rw [hr0] at hout'; exact absurd hout' (by simp)
    | some r0 =>
      rw [hr0] at hout'
      cases hds : descendantsMany recurse cs with
      | none => rw [hds] at hout'; exact absurd hout' (by simp)
      | some rs =>
        rw [hds] at hout'
        have hsum : out = r0 ++ rs := by
          simpa using hout'.symm
        subst hsum
        rcases List.mem_cons.mp hc with rfl | hc2
        · exact ⟨r0, hr0, fun x hx => List.mem_append.mpr (Or.inl hx)⟩
        · obtain ⟨r, hr, hsub⟩ := ih rs hds c hc2
          exact ⟨r, hr, fun x hx => List.mem_append.mpr (Or.inr (hsub x hx))⟩

theorem getAllDescendants_mem {dir : List Jobcode} :
    ∀ (cs : List Jobcode) (C : Jobcode) (pid fuel : Nat) (ds : List Nat),
      Chain dir pid (cs ++ [C]) → getAllDescendants fuel pid dir = some ds →
      C.id ∈ ds := by
  intro cs
  induction cs with
  | nil =>
    intro C pid fuel ds hchain hds
    cases hchain with
    | cons hC hpar =>
      cases fuel with
      | zero => exact absurd hds (by simp [getAllDescendants])
      | succ f =>
        have hds' : (match descendantsMany (fun q => getAllDescendants f q dir)
            (dir.filter fun jc => jc.parent_id == some pid) with
          | none => none
          | some rest =>
            some ((dir.filter fun jc => jc.parent_id == some pid).map Jobcode.id ++
              rest)) = some ds := hds
        cases hdm : descendantsMany (fun q => getAllDescendants f q dir)
            (dir.filter fun jc => jc.parent_id == some pid) with
        | none => rw [hdm] at hds'; exact absurd hds' (by simp)
        | some rest =>
          rw [hdm] at hds'
          have hsum : ds = (dir.filter fun jc =>
              jc.parent_id == some pid).map Jobcode.id ++ rest := by
            simpa using hds'.symm
          subst hsum
          refine List.mem_append.mpr (Or.inl ?_)
          refine List.mem_map_of_mem Jobcode.id ?_
          exact List.mem_filter.mpr ⟨hC, by simp [hpar]⟩
  | cons M cs ih =>
    intro C pid fuel ds hchain hds
    cases hchain with
    | cons hM hpar hc =>
      cases fuel with
      | zero => exact absurd hds (by simp [getAllDescendants])
      | succ f =>
        have hds' : (match descendantsMany (fun q => getAllDescendants f q dir)
            (dir.filter fun jc => jc.parent_id == some pid) with
          | none => none
          | some rest =>
            some ((dir.filter fun jc => jc.parent_id == some pid).map Jobcode.id ++
              rest)) = some ds := hds
        cases hdm : descendantsMany (fun q => getAllDescendants f q dir)
            (dir.filter fun jc => jc.parent_id == some pid) with
        | none => rw [hdm] at hds'; exact absurd hds' (by simp)
        | some rest =>
          rw [hdm] at hds'
          have hsum : ds = (dir.filter fun jc =>
              jc.parent_id == some pid).map Jobcode.id ++ rest := by
            simpa using hds'.symm
          subst hsum
          have hMch : M ∈ dir.filter fun jc => jc.parent_id == some pid :=
            List.mem_filter.mpr ⟨hM, by simp [hpar]⟩
          obtain ⟨r, hr, hsub⟩ := descendantsMany_mem _ rest hdm M hMch
          have hCr : C.id ∈ r := ih C M.id f r hc hr
          exact List.mem_append.mpr (Or.inr (hsub _ hCr))

theorem acyclic_of_rank {dir : List Jobcode} (rank : Nat → Nat)
    (hr : dir.all (fun jc =>
      match jc.parent_id with
      | some p => decide (rank jc.id < rank p)
      | none => true) = true) :
    Acyclic dir := by
  have hr2 : ∀ jc ∈ dir, ∀ p, jc.parent_id = some p → rank jc.id < rank p := by
    intro jc hjc p hp
    have := List.all_eq_true.mp hr jc hjc
    rw [hp] at this
    exact of_decide_eq_true this
  have hchain : ∀ pid cs, Chain dir pid cs → ∀ x ∈ cs, rank x.id < rank pid := by
    intro pid cs h
    induction h with
    | nil => simp
    | @cons pid M cs hM hpar _ ih =>
      intro x hx
      have hMr : rank M.id < rank pid := hr2 M hM pid hpar
      rcases List.mem_cons.mp hx with rfl | hx
      · exact hMr
      · exact (ih x hx).trans hMr
  intro M cs hM hcontra
  exact lt_irrefl _ (hchain M.id (cs ++ [M]) hcontra M (by simp))

/-- C1.  Descendant inclusion: in an id-keyed acyclic directory, if C's
parent chain reaches P (at any depth), then `getAllDescendants` at P
terminates (with fuel one more than the directory size) with a list
containing C's id, and the resolved filter for a direct reference to P
contains both P's id and C's id. -/
theorem descendant_inclusion (dir : List Jobcode) (P C : Jobcode)
    (cs : List Jobcode) (hkey : IdKeyed dir) (hacyc : Acyclic dir)
    (hP : P ∈ dir) (hPid : P.id ≠ 0) (hchain : Chain dir P.id (cs ++ [C])) :
    ∃ ds, getAllDescendants (dir.length + 1) P.id dir = some ds ∧ C.id ∈ ds ∧
      ∃ ids, resolveJobcodeFilter (dir.length + 1) dir none (some P.id) =
          some (ResolveOutcome.withFilter ids) ∧ P.id ∈ ids ∧ C.id ∈ ids := by
  have hbound : ∀ M cs2, Chain dir P.id (cs2 ++ [M]) → cs2.length + 1 ≤ dir.length := by
    intro M cs2 h
    have := chain_length_le hkey hacyc h
    simpa using this
  have hne : getAllDescendants (dir.length + 1) P.id dir ≠ none :=
    getAllDescendants_ne_none (dir.length + 1) dir.length P.id hbound
      (Nat.lt_succ_self _)
  cases hds : getAllDescendants (dir.length + 1) P.id dir with
  | none => exact absurd hds hne
  | some ds =>
    have hmem := getAllDescendants_mem cs C P.id (dir.length + 1) ds hchain hds
    have hlook : ∃ jc0, lookupJobcode dir P.id = some jc0 := by
      have : (dir.find? fun jc => jc.id == P.id).isSome :=
        List.find?_isSome.mpr ⟨P, hP, by simp⟩
      exact Option.isSome_iff_exists.mp this
    obtain ⟨jc0, hjc0⟩ := hlook
    refine ⟨ds, rfl, hmem, P.id :: ds, ?_, by simp, by simp [hmem]⟩
    simp [resolveJobcodeFilter, natTruthy, hPid, hjc0, hds]

/-- Root of the C1 witness directory. -/
def c1P : Jobcode := { id := 1, parent_id := none, name := strLit "Root", short_code := none }

/-- Middle node of the C1 witness directory, child of the root. -/
def c1M : Jobcode := { id := 2, parent_id := some 1, name := strLit "Mid", short_code := none }

/-- Leaf of the C1 witness directory, grandchild of the root. -/
def c1C : Jobcode := { id := 3, parent_id := some 2, name := strLit "Leaf", short_code := none }

/-- The three-level C1 witness directory. -/
def c1Dir : List Jobcode := [c1P, c1M, c1C]

/-- Witness for C1 on the concrete three-level directory: the grandchild
is reached through the middle node, and both its id and the root's id
appear in the resolved filter. -/
theorem descendant_inclusion_witness :
    (IdKeyed c1Dir ∧ Acyclic c1Dir ∧ c1P ∈ c1Dir ∧ c1P.id ≠ 0 ∧
        Chain c1Dir c1P.id ([c1M] ++ [c1C])) ∧
      ∃ ds, getAllDescendants (c1Dir.length + 1) c1P.id c1Dir = some ds ∧
        c1C.id ∈ ds ∧
        ∃ ids, resolveJobcodeFilter (c1Dir.length + 1) c1Dir none (some c1P.id) =
            some (ResolveOutcome.withFilter ids) ∧ c1P.id ∈ ids ∧ c1C.id ∈ ids := by
  have hacyc : Acyclic c1Dir := acyclic_of_rank (fun n => 10 - n) (by decide)
  have hchain : Chain c1Dir c1P.id ([c1M] ++ [c1C]) :=
    Chain.cons (by decide) (by decide)
      (Chain.cons (by decide) (by decide) Chain.nil)
  exact ⟨⟨by decide, hacyc, by decide, by decide, hchain⟩,
    descendant_inclusion c1Dir c1P c1C [c1M] (by decide) hacyc (by decide)
      (by decide) hchain⟩
